import Mathlib

/-!
Shallow embedding of the gavel inbox synchronization engine
(src/electron/polling.ts and the inbox state module) and proofs of the
specified reconciliation, status-check, scheduling and retention
properties.

Timestamps are modelled as `Int` milliseconds since the epoch: the code
stores ISO-8601 strings but always compares them through
`new Date(x).getTime()`, so the millisecond value is the semantically
relevant content.  `new Date().toISOString()` at poll time is modelled by
an explicit `now : Int` parameter threaded through each operation.
-/

namespace Gavel

/-- Kanban lifecycle column of a tracked PR (shared/types.ts `KanbanColumn`). -/
inductive KanbanColumn
  | inbox
  | needsAttention
  | reviewed
  | done
deriving DecidableEq, Repr

/-- Which adapter kind produced a PR (the `'github-search' | 'slack'` tag). -/
inductive SourceKind
  | githubSearch
  | slack
deriving DecidableEq, Repr

/-- Open/closed/merged state reported by the hosting service. -/
inductive PRState
  | openPR
  | closedPR
  | mergedPR
deriving DecidableEq, Repr

/-- One tracked pull request (shared/types.ts `InboxPR`). -/
structure InboxPR where
  id : String
  owner : String
  repo : String
  number : Nat
  title : String
  author : String
  url : String
  headSha : String
  column : KanbanColumn
  source : SourceKind
  sourceId : String
  addedAt : Int
  lastCheckedAt : Int
  ignoredAt : Option Int := none
  reviewedAt : Option Int := none
  doneAt : Option Int := none
deriving DecidableEq, Repr

/-- A raw PR record returned by an adapter (shared/types.ts `GitHubSearchPR`). -/
structure GitHubSearchPR where
  owner : String
  repo : String
  number : Nat
  title : String
  author : String
  url : String
  headSha : String
  state : PRState
deriving DecidableEq, Repr

/-- Result of a per-PR status check (shared/types.ts `PRStatusResult`). -/
structure PRStatusResult where
  headSha : String
  state : PRState
deriving DecidableEq, Repr

/-- A configured query-based source (shared/types.ts `GitHubSearchSource`). -/
structure GitHubSearchSource where
  id : String
  name : String
  query : String
  enabled : Bool
deriving DecidableEq, Repr

/-- A configured channel-based source (shared/types.ts `SlackChannelSource`). -/
structure SlackChannelSource where
  id : String
  name : String
  channelName : String
  enabled : Bool
deriving DecidableEq, Repr

/-- A configured origin of candidate PRs (shared/types.ts `PRSource`). -/
inductive PRSource
  | githubSearch (s : GitHubSearchSource)
  | slack (s : SlackChannelSource)
deriving DecidableEq, Repr

/-- The `id` field of either source variant. -/
def PRSource.id : PRSource → String
  | .githubSearch s => s.id
  | .slack s => s.id

/-- The `type` tag of either source variant. -/
def PRSource.kind : PRSource → SourceKind
  | .githubSearch _ => .githubSearch
  | .slack _ => .slack

/-- The aggregate persisted root (shared/types.ts `InboxState`).  The ignore
ledger `Record<string, string>` is modelled as an association list from PR id
to ignore timestamp. -/
structure InboxState where
  prs : List InboxPR
  sources : List PRSource
  lastPollAt : Option Int
  pollIntervalMs : Nat
  ignoredPRIds : List (String × Int)
deriving DecidableEq, Repr

/-- `DONE_CLEANUP_HOURS * 60 * 60 * 1000` from the inbox module. -/
def DONE_CLEANUP_MS : Int := 24 * 60 * 60 * 1000

/-- `IGNORE_DURATION_DAYS * 24 * 60 * 60 * 1000` from the inbox module. -/
def IGNORE_DURATION_MS : Int := 7 * 24 * 60 * 60 * 1000

/-- `generatePRId`: the identity key `"{owner}/{repo}#{number}"`. -/
def generatePRId (owner : String) (repo : String) (number : Nat) : String :=
  owner ++ "/" ++ repo ++ "#" ++ toString number

/-- `isRecentlyIgnored`: a PR id is suppressed when the ignore ledger holds an
entry for it whose timestamp is strictly within the last 7 days. -/
def isRecentlyIgnored (now : Int) (prId : String)
    (ignoredPRIds : List (String × Int)) : Bool :=
  match ignoredPRIds.lookup prId with
  | none => false
  | some ignoredTime => ignoredTime > now - IGNORE_DURATION_MS

/-- The per-entry filter body of `cleanupDonePRs`: a PR is kept unless it is
in the `done` column with a `doneAt` at least 24 hours old (a `done` PR with
no `doneAt` is kept). -/
def keepDone (now : Int) (pr : InboxPR) : Bool :=
  match pr.column, pr.doneAt with
  | .done, some doneTime => decide (doneTime > now - DONE_CLEANUP_MS)
  | _, _ => true

/-- `cleanupDonePRs`: drop PRs in the `done` column whose `doneAt` is at least
24 hours old; everything else is kept. -/
def cleanupDonePRs (now : Int) (prs : List InboxPR) : List InboxPR :=
  prs.filter (keepDone now)

/-- `cleanupExpiredIgnores`: drop ignore-ledger entries older than 7 days. -/
def cleanupExpiredIgnores (now : Int)
    (ignoredPRIds : List (String × Int)) : List (String × Int) :=
  ignoredPRIds.filter fun entry => decide (entry.2 > now - IGNORE_DURATION_MS)

/-- `getDefaultState` from the inbox module. -/
def getDefaultState : InboxState :=
  { prs := []
    sources := []
    lastPollAt := none
    pollIntervalMs := 300000
    ignoredPRIds := [] }

/-- The persisted inbox file as seen by `loadInboxState`: missing, failing
`JSON.parse`, or parsed content.  A parsed file may lack the `ignoredPRIds`
field (older state files), which load backfills with `{}`. -/
structure RawInboxState where
  prs : List InboxPR
  sources : List PRSource
  lastPollAt : Option Int
  pollIntervalMs : Nat
  ignoredPRIds : Option (List (String × Int))
deriving DecidableEq, Repr

/-- The three shapes the persisted inbox file can be in. -/
inductive InboxFile
  | missing
  | unparsable
  | parsed (raw : RawInboxState)
deriving DecidableEq, Repr

/-- `loadInboxState`: return the default state when the file is missing or
fails to parse; otherwise backfill the ignore ledger and run the retention
sweeps over done PRs and expired ignores. -/
def loadInboxState (now : Int) (file : InboxFile) : InboxState :=
  match file with
  | .missing => getDefaultState
  | .unparsable => getDefaultState
  | .parsed raw =>
      { prs := cleanupDonePRs now raw.prs
        sources := raw.sources
        lastPollAt := raw.lastPollAt
        pollIntervalMs := raw.pollIntervalMs
        ignoredPRIds := cleanupExpiredIgnores now (raw.ignoredPRIds.getD []) }

/-- The per-entry body of `movePRToColumn`'s map: set the column of an entry
with the given id, stamping `reviewedAt` or `doneAt` when moving into those
columns (the `updates` object spread of the source). -/
def moveEntry (now : Int) (prId : String) (column : KanbanColumn)
    (pr : InboxPR) : InboxPR :=
  if pr.id = prId then
    if column = .reviewed then { pr with column := column, reviewedAt := some now }
    else if column = .done then { pr with column := column, doneAt := some now }
    else { pr with column := column }
  else pr

/-- `movePRToColumn`: set the column of every entry with the given id,
stamping `reviewedAt` or `doneAt` when moving into those columns. -/
def movePRToColumn (now : Int) (state : InboxState) (prId : String)
    (column : KanbanColumn) : InboxState :=
  { state with prs := state.prs.map (moveEntry now prId column) }

/-- The `tempPR` record built by `pollSource` for a newly discovered PR. -/
def mkTempPR (now : Int) (source : PRSource) (pr : GitHubSearchPR) : InboxPR :=
  { id := generatePRId pr.owner pr.repo pr.number
    owner := pr.owner
    repo := pr.repo
    number := pr.number
    title := pr.title
    author := pr.author
    url := pr.url
    headSha := pr.headSha
    column := .inbox
    source := source.kind
    sourceId := source.id
    addedAt := now
    lastCheckedAt := now }

/-- The body of `pollSource`'s per-discovered-PR loop: if an entry with the
same identity key exists, refresh `title`, `headSha`, `lastCheckedAt`;
otherwise append a fresh entry unless the id is recently ignored. -/
def processDiscovered (now : Int) (source : PRSource) (state : InboxState)
    (pr : GitHubSearchPR) : InboxState :=
  let prId := generatePRId pr.owner pr.repo pr.number
  match state.prs.find? (fun p => p.id == prId) with
  | some _ =>
      { state with
        prs := state.prs.map fun p =>
          if p.id = prId then
            { p with title := pr.title, headSha := pr.headSha, lastCheckedAt := now }
          else p }
  | none =>
      if isRecentlyIgnored now prId state.ignoredPRIds then state
      else { state with prs := state.prs ++ [mkTempPR now source pr] }

/-- `pollSource`'s discovery-processing step over a whole batch, folded in
order. -/
def processDiscoveredBatch (now : Int) (source : PRSource) (state : InboxState)
    (prs : List GitHubSearchPR) : InboxState :=
  prs.foldl (processDiscovered now source) state

/-- The per-entry body of the "always update to the latest SHA" map in
`checkPRStatusChanges`: overwrite the stored SHA and bump `lastCheckedAt` on
the entry with the given id. -/
def shaEntry (now : Int) (prId : String) (sha : String) (p : InboxPR) : InboxPR :=
  if p.id = prId then { p with headSha := sha, lastCheckedAt := now } else p

/-- The body of `checkPRStatusChanges`'s per-result loop: a failed lookup is
skipped; merged/closed moves the PR to `done` and short-circuits; otherwise a
SHA change moves a `reviewed` PR to `needs-attention` (only with a non-empty
stored SHA) and in any case a SHA change overwrites the stored SHA and bumps
`lastCheckedAt`. -/
def statusStep (now : Int) (statusOf : InboxPR → Option PRStatusResult)
    (state : InboxState) (pr : InboxPR) : InboxState :=
  match statusOf pr with
  | none => state
  | some status =>
      if status.state = .mergedPR ∨ status.state = .closedPR then
        movePRToColumn now state pr.id .done
      else
        let state1 :=
          if pr.headSha ≠ "" ∧ status.headSha ≠ pr.headSha ∧ pr.column = .reviewed then
            movePRToColumn now state pr.id .needsAttention
          else state
        if status.headSha ≠ pr.headSha then
          { state1 with prs := state1.prs.map (shaEntry now pr.id status.headSha) }
        else state1

/-- `checkPRStatusChanges`: run the status pass over every non-`done` PR of
the state, in list order.  `statusOf` models `getPRStatus`; `none` models a
rejected lookup (caught and skipped per PR). -/
def checkPRStatusChanges (now : Int) (statusOf : InboxPR → Option PRStatusResult)
    (state : InboxState) : InboxState :=
  let activePRs := state.prs.filter fun pr => pr.column ≠ .done
  activePRs.foldl (statusStep now statusOf) state

/-- Scheduler state owned by the polling module: the module-level
`isPolling` busy flag and the `rateLimitUntil` backoff deadline. -/
structure SchedulerState where
  isPolling : Bool
  rateLimitUntil : Int
deriving DecidableEq, Repr

/-- What `runPoll`'s entry gate decided for one invocation. -/
inductive PollOutcome
  | skippedBusy
  | skippedRateLimited
  | ran
deriving DecidableEq, Repr

/-- The entry gate of `runPoll(force)`: skip when busy and not forced; skip
when not forced and still before the backoff deadline; otherwise reset the
backoff on a forced (manual) run and mark the scheduler busy. -/
def runPollGate (s : SchedulerState) (force : Bool) (now : Int) :
    PollOutcome × SchedulerState :=
  if s.isPolling ∧ ¬force then (.skippedBusy, s)
  else if ¬force ∧ s.rateLimitUntil > now then (.skippedRateLimited, s)
  else
    let s1 := if force then { s with rateLimitUntil := 0 } else s
    (.ran, { s1 with isPolling := true })

/-- The identity key of a discovered PR. -/
def GitHubSearchPR.key (d : GitHubSearchPR) : String :=
  generatePRId d.owner d.repo d.number

/-- The field refresh `pollSource` applies to entries matching a discovered
PR's identity key. -/
def overwriteEntry (now : Int) (d : GitHubSearchPR) (p : InboxPR) : InboxPR :=
  if p.id = d.key then
    { p with title := d.title, headSha := d.headSha, lastCheckedAt := now }
  else p

/-- `processDiscovered`'s action on the `prs` list alone (the ignore ledger
is read but never written by the discovery step). -/
def stepPRs (now : Int) (source : PRSource) (ledger : List (String × Int))
    (l : List InboxPR) (d : GitHubSearchPR) : List InboxPR :=
  match l.find? (fun p => p.id == d.key) with
  | some _ => l.map (overwriteEntry now d)
  | none =>
      if isRecentlyIgnored now d.key ledger then l
      else l ++ [mkTempPR now source d]

/-- The ids of the tracked PRs, in order. -/
def idsOf (l : List InboxPR) : List String :=
  l.map InboxPR.id

theorem overwriteEntry_id (now : Int) (d : GitHubSearchPR) (p : InboxPR) :
    (overwriteEntry now d p).id = p.id := by
  unfold overwriteEntry
  split <;> rfl

theorem idsOf_map_overwrite (now : Int) (d : GitHubSearchPR) (l : List InboxPR) :
    idsOf (l.map (overwriteEntry now d)) = idsOf l := by
  unfold idsOf
  rw [List.map_map]
  exact List.map_congr_left fun p _ => overwriteEntry_id now d p

theorem find?_key_eq_none_iff (l : List InboxPR) (k : String) :
    l.find? (fun p => p.id == k) = none ↔ k ∉ idsOf l := by
  rw [List.find?_eq_none]
  unfold idsOf
  constructor
  · intro h hk
    obtain ⟨p, hp, hpk⟩ := List.mem_map.mp hk
    exact h p hp (by simp [hpk])
  · intro h p hp
    simp only [beq_iff_eq]
    intro hpk
    exact h (List.mem_map.mpr ⟨p, hp, hpk⟩)

theorem processDiscovered_eq_stepPRs (now : Int) (source : PRSource)
    (S : InboxState) (d : GitHubSearchPR) :
    processDiscovered now source S d =
      { S with prs := stepPRs now source S.ignoredPRIds S.prs d } := by
  unfold processDiscovered stepPRs overwriteEntry GitHubSearchPR.key
  cases h : S.prs.find? (fun p => p.id == generatePRId d.owner d.repo d.number) with
  | none =>
      simp only [h]
      split <;> rfl
  | some p0 =>
      simp only [h]

theorem processDiscoveredBatch_eq_foldl (now : Int) (source : PRSource)
    (S : InboxState) (D : List GitHubSearchPR) :
    processDiscoveredBatch now source S D =
      { S with prs := D.foldl (stepPRs now source S.ignoredPRIds) S.prs } := by
  induction D generalizing S with
  | nil => rfl
  | cons d D ih =>
      show processDiscoveredBatch now source (processDiscovered now source S d) D = _
      rw [processDiscovered_eq_stepPRs, ih]
      rfl

theorem mkTempPR_id (now : Int) (source : PRSource) (d : GitHubSearchPR) :
    (mkTempPR now source d).id = d.key := rfl

theorem overwrite_overwrite_self (now : Int) (d : GitHubSearchPR) (p : InboxPR) :
    overwriteEntry now d (overwriteEntry now d p) = overwriteEntry now d p := by
  unfold overwriteEntry
  by_cases h : p.id = d.key <;> simp [h]

theorem overwrite_absorb (now : Int) (x y : GitHubSearchPR) (hxy : x.key = y.key)
    (p : InboxPR) :
    overwriteEntry now y (overwriteEntry now x p) = overwriteEntry now y p := by
  unfold overwriteEntry
  by_cases h : p.id = x.key
  · have h2 : p.id = y.key := hxy ▸ h
    simp [h, h2, hxy]
  · have h2 : ¬ p.id = y.key := fun hy => h (hxy ▸ hy)
    simp [h, h2, hxy]

theorem overwrite_comm (now : Int) (x y : GitHubSearchPR) (hxy : x.key ≠ y.key)
    (p : InboxPR) :
    overwriteEntry now y (overwriteEntry now x p) =
      overwriteEntry now x (overwriteEntry now y p) := by
  unfold overwriteEntry
  have hyx : y.key ≠ x.key := Ne.symm hxy
  by_cases hx : p.id = x.key <;> by_cases hy : p.id = y.key
  · exact absurd (hx.symm.trans hy) hxy
  · simp [hx, hy, hxy, hyx]
  · simp [hx, hy, hxy, hyx]
  · simp [hx, hy, hxy, hyx]

theorem overwrite_mkTempPR (now : Int) (source : PRSource) (d : GitHubSearchPR) :
    overwriteEntry now d (mkTempPR now source d) = mkTempPR now source d := by
  unfold overwriteEntry
  rw [if_pos (mkTempPR_id now source d)]
  rfl

theorem map_overwrite_of_not_mem (now : Int) (d : GitHubSearchPR) (l : List InboxPR)
    (h : d.key ∉ idsOf l) : l.map (overwriteEntry now d) = l := by
  have hpt : ∀ p ∈ l, overwriteEntry now d p = id p := by
    intro p hp
    unfold overwriteEntry
    rw [if_neg]
    · rfl
    · intro hpk
      exact h (List.mem_map.mpr ⟨p, hp, hpk⟩)
  rw [List.map_congr_left hpt, List.map_id]

theorem stepPRs_of_mem (now : Int) (source : PRSource) (ledger : List (String × Int))
    (d : GitHubSearchPR) (l : List InboxPR) (h : d.key ∈ idsOf l) :
    stepPRs now source ledger l d = l.map (overwriteEntry now d) := by
  unfold stepPRs
  cases hf : l.find? (fun p => p.id == d.key) with
  | none => exact absurd h ((find?_key_eq_none_iff l d.key).mp hf)
  | some p0 => rfl

theorem stepPRs_of_ignored (now : Int) (source : PRSource) (ledger : List (String × Int))
    (d : GitHubSearchPR) (l : List InboxPR) (h : d.key ∉ idsOf l)
    (hi : isRecentlyIgnored now d.key ledger = true) :
    stepPRs now source ledger l d = l := by
  unfold stepPRs
  rw [(find?_key_eq_none_iff l d.key).mpr h]
  simp [hi]

theorem stepPRs_of_new (now : Int) (source : PRSource) (ledger : List (String × Int))
    (d : GitHubSearchPR) (l : List InboxPR) (h : d.key ∉ idsOf l)
    (hi : isRecentlyIgnored now d.key ledger = false) :
    stepPRs now source ledger l d = l ++ [mkTempPR now source d] := by
  unfold stepPRs
  rw [(find?_key_eq_none_iff l d.key).mpr h]
  simp [hi]

theorem mem_idsOf_stepPRs (now : Int) (source : PRSource) (ledger : List (String × Int))
    (d : GitHubSearchPR) (l : List InboxPR) (k : String) (h : k ∈ idsOf l) :
    k ∈ idsOf (stepPRs now source ledger l d) := by
  by_cases hm : d.key ∈ idsOf l
  · rw [stepPRs_of_mem now source ledger d l hm, idsOf_map_overwrite]
    exact h
  · cases hi : isRecentlyIgnored now d.key ledger with
    | true =>
        rw [stepPRs_of_ignored now source ledger d l hm hi]
        exact h
    | false =>
        rw [stepPRs_of_new now source ledger d l hm hi]
        unfold idsOf at h ⊢
        rw [List.map_append]
        exact List.mem_append_left _ h

/-- After a discovery step has processed `d`, its key is either tracked or
suppressed by a live ignore entry. -/
def covered (now : Int) (ledger : List (String × Int)) (l : List InboxPR)
    (d : GitHubSearchPR) : Prop :=
  d.key ∈ idsOf l ∨ isRecentlyIgnored now d.key ledger = true

theorem covered_stepPRs_self (now : Int) (source : PRSource)
    (ledger : List (String × Int)) (d : GitHubSearchPR) (l : List InboxPR) :
    covered now ledger (stepPRs now source ledger l d) d := by
  by_cases h : d.key ∈ idsOf l
  · exact Or.inl (mem_idsOf_stepPRs now source ledger d l d.key h)
  · cases hi : isRecentlyIgnored now d.key ledger with
    | true => exact Or.inr hi
    | false =>
        left
        rw [stepPRs_of_new now source ledger d l h hi]
        unfold idsOf
        rw [List.map_append]
        exact List.mem_append_right _ (by simp [mkTempPR_id])

theorem covered_mono_step (now : Int) (source : PRSource)
    (ledger : List (String × Int)) (x y : GitHubSearchPR) (l : List InboxPR)
    (h : covered now ledger l x) :
    covered now ledger (stepPRs now source ledger l y) x := by
  cases h with
  | inl h => exact Or.inl (mem_idsOf_stepPRs now source ledger y l x.key h)
  | inr h => exact Or.inr h

theorem covered_foldl_of (now : Int) (source : PRSource)
    (ledger : List (String × Int)) (D : List GitHubSearchPR) (l : List InboxPR)
    (x : GitHubSearchPR) (h : covered now ledger l x) :
    covered now ledger (D.foldl (stepPRs now source ledger) l) x := by
  induction D generalizing l with
  | nil => exact h
  | cons d D ih =>
      rw [List.foldl_cons]
      exact ih _ (covered_mono_step now source ledger x d l h)

theorem covered_foldl (now : Int) (source : PRSource)
    (ledger : List (String × Int)) (D : List GitHubSearchPR) (l : List InboxPR) :
    ∀ d ∈ D, covered now ledger (D.foldl (stepPRs now source ledger) l) d := by
  induction D generalizing l with
  | nil => simp
  | cons x D ih =>
      intro d hd
      rw [List.foldl_cons]
      rcases List.mem_cons.mp hd with h | h
      · subst h
        exact covered_foldl_of now source ledger D _ d
          (covered_stepPRs_self now source ledger d l)
      · exact ih _ d h

theorem overwriteEntry_of_ne (now : Int) (d : GitHubSearchPR) (p : InboxPR)
    (h : p.id ≠ d.key) : overwriteEntry now d p = p := by
  unfold overwriteEntry
  rw [if_neg h]

theorem covered_map_overwrite (now : Int) (ledger : List (String × Int))
    (w : GitHubSearchPR) (T : List InboxPR) (z : GitHubSearchPR)
    (h : covered now ledger T z) :
    covered now ledger (T.map (overwriteEntry now w)) z := by
  cases h with
  | inl h =>
      exact Or.inl (by rw [idsOf_map_overwrite]; exact h)
  | inr h => exact Or.inr h

theorem foldl_stepPRs_map_comm (now : Int) (source : PRSource)
    (ledger : List (String × Int)) (D : List GitHubSearchPR) (d : GitHubSearchPR)
    (T : List InboxPR)
    (hcov : ∀ x ∈ D, covered now ledger T x)
    (hne : ∀ x ∈ D, x.key ≠ d.key) :
    D.foldl (stepPRs now source ledger) (T.map (overwriteEntry now d)) =
      (D.foldl (stepPRs now source ledger) T).map (overwriteEntry now d) := by
  induction D generalizing T with
  | nil => rfl
  | cons x D ih =>
      rw [List.foldl_cons, List.foldl_cons]
      have hxd : x.key ≠ d.key := hne x (List.mem_cons_self x D)
      by_cases hm : x.key ∈ idsOf T
      · have hm' : x.key ∈ idsOf (T.map (overwriteEntry now d)) := by
          rw [idsOf_map_overwrite]; exact hm
        rw [stepPRs_of_mem now source ledger x _ hm', stepPRs_of_mem now source ledger x T hm]
        have hcomm : (T.map (overwriteEntry now d)).map (overwriteEntry now x) =
            (T.map (overwriteEntry now x)).map (overwriteEntry now d) := by
          rw [List.map_map, List.map_map]
          exact List.map_congr_left fun p _ => overwrite_comm now d x (Ne.symm hxd) p
        rw [hcomm]
        exact ih _ (fun z hz => covered_map_overwrite now ledger x T z
            (hcov z (List.mem_cons_of_mem x hz)))
          (fun z hz => hne z (List.mem_cons_of_mem x hz))
      · have hi : isRecentlyIgnored now x.key ledger = true :=
          (hcov x (List.mem_cons_self x D)).resolve_left hm
        have hm2 : x.key ∉ idsOf (T.map (overwriteEntry now d)) := by
          rw [idsOf_map_overwrite]; exact hm
        rw [stepPRs_of_ignored now source ledger x _ hm2 hi,
          stepPRs_of_ignored now source ledger x T hm hi]
        exact ih T (fun z hz => hcov z (List.mem_cons_of_mem x hz))
          (fun z hz => hne z (List.mem_cons_of_mem x hz))

theorem foldl_stepPRs_map_absorb (now : Int) (source : PRSource)
    (ledger : List (String × Int)) (D : List GitHubSearchPR) (d : GitHubSearchPR)
    (T : List InboxPR)
    (hcov : ∀ x ∈ D, covered now ledger T x)
    (hmem : d.key ∈ idsOf T)
    (hex : ∃ x ∈ D, x.key = d.key) :
    D.foldl (stepPRs now source ledger) (T.map (overwriteEntry now d)) =
      D.foldl (stepPRs now source ledger) T := by
  induction D generalizing T with
  | nil =>
      obtain ⟨x, hx, _⟩ := hex
      exact absurd hx (List.not_mem_nil x)
  | cons x D ih =>
      rw [List.foldl_cons, List.foldl_cons]
      by_cases hxd : x.key = d.key
      · have hmx : x.key ∈ idsOf T := hxd ▸ hmem
        have hmx' : x.key ∈ idsOf (T.map (overwriteEntry now d)) := by
          rw [idsOf_map_overwrite]; exact hmx
        rw [stepPRs_of_mem now source ledger x _ hmx', stepPRs_of_mem now source ledger x T hmx]
        have habs : (T.map (overwriteEntry now d)).map (overwriteEntry now x) =
            T.map (overwriteEntry now x) := by
          rw [List.map_map]
          exact List.map_congr_left fun p _ => overwrite_absorb now d x hxd.symm p
        rw [habs]
      · have hex' : ∃ z ∈ D, z.key = d.key := by
          rcases hex with ⟨z, hz, hzk⟩
          rcases List.mem_cons.mp hz with h | h
          · exact absurd (h ▸ hzk) hxd
          · exact ⟨z, h, hzk⟩
        by_cases hm : x.key ∈ idsOf T
        · have hm' : x.key ∈ idsOf (T.map (overwriteEntry now d)) := by
            rw [idsOf_map_overwrite]; exact hm
          rw [stepPRs_of_mem now source ledger x _ hm', stepPRs_of_mem now source ledger x T hm]
          have hcomm : (T.map (overwriteEntry now d)).map (overwriteEntry now x) =
              (T.map (overwriteEntry now x)).map (overwriteEntry now d) := by
            rw [List.map_map, List.map_map]
            exact List.map_congr_left fun p _ =>
              overwrite_comm now d x (fun h => hxd h.symm) p
          rw [hcomm]
          exact ih _ (fun z hz => covered_map_overwrite now ledger x T z
              (hcov z (List.mem_cons_of_mem x hz)))
            (by rw [idsOf_map_overwrite]; exact hmem) hex'
        · have hi : isRecentlyIgnored now x.key ledger = true :=
            (hcov x (List.mem_cons_self x D)).resolve_left hm
          have hm2 : x.key ∉ idsOf (T.map (overwriteEntry now d)) := by
            rw [idsOf_map_overwrite]; exact hm
          rw [stepPRs_of_ignored now source ledger x _ hm2 hi,
            stepPRs_of_ignored now source ledger x T hm hi]
          exact ih T (fun z hz => hcov z (List.mem_cons_of_mem x hz)) hmem hex'

theorem foldl_stepPRs_append_comm (now : Int) (source : PRSource)
    (ledger : List (String × Int)) (D : List GitHubSearchPR) (T : List InboxPR)
    (q : InboxPR)
    (hcov : ∀ x ∈ D, covered now ledger T x)
    (hne : ∀ x ∈ D, x.key ≠ q.id) :
    D.foldl (stepPRs now source ledger) (T ++ [q]) =
      (D.foldl (stepPRs now source ledger) T) ++ [q] := by
  induction D generalizing T with
  | nil => rfl
  | cons x D ih =>
      rw [List.foldl_cons, List.foldl_cons]
      have hxq : x.key ≠ q.id := hne x (List.mem_cons_self x D)
      by_cases hm : x.key ∈ idsOf T
      · have hm' : x.key ∈ idsOf (T ++ [q]) := by
          unfold idsOf at hm ⊢
          rw [List.map_append]
          exact List.mem_append_left _ hm
        rw [stepPRs_of_mem now source ledger x _ hm', stepPRs_of_mem now source ledger x T hm]
        rw [List.map_append]
        have hq : [q].map (overwriteEntry now x) = [q] := by
          simp [overwriteEntry_of_ne now x q (fun h => hxq h.symm)]
        rw [hq]
        exact ih _ (fun z hz => covered_map_overwrite now ledger x T z
            (hcov z (List.mem_cons_of_mem x hz)))
          (fun z hz => hne z (List.mem_cons_of_mem x hz))
      · have hi : isRecentlyIgnored now x.key ledger = true :=
          (hcov x (List.mem_cons_self x D)).resolve_left hm
        have hm2 : x.key ∉ idsOf (T ++ [q]) := by
          unfold idsOf at hm ⊢
          rw [List.map_append]
          intro hmm
          rcases List.mem_append.mp hmm with h | h
          · exact hm h
          · simp at h
            exact hxq h
        rw [stepPRs_of_ignored now source ledger x _ hm2 hi,
          stepPRs_of_ignored now source ledger x T hm hi]
        exact ih T (fun z hz => hcov z (List.mem_cons_of_mem x hz))
          (fun z hz => hne z (List.mem_cons_of_mem x hz))

theorem foldl_stepPRs_idem (now : Int) (source : PRSource)
    (ledger : List (String × Int)) (D : List GitHubSearchPR) :
    ∀ l : List InboxPR,
      D.foldl (stepPRs now source ledger) (D.foldl (stepPRs now source ledger) l) =
        D.foldl (stepPRs now source ledger) l := by
  induction D using List.reverseRecOn with
  | nil => intro l; rfl
  | append_singleton D d ih =>
      intro l
      simp only [List.foldl_append, List.foldl_cons, List.foldl_nil]
      set T := D.foldl (stepPRs now source ledger) l with hT
      have hcov : ∀ x ∈ D, covered now ledger T x := covered_foldl now source ledger D l
      have ihT : D.foldl (stepPRs now source ledger) T = T := ih l
      by_cases hm : d.key ∈ idsOf T
      · rw [stepPRs_of_mem now source ledger d T hm]
        by_cases hex : ∃ x ∈ D, x.key = d.key
        · rw [foldl_stepPRs_map_absorb now source ledger D d T hcov hm hex, ihT]
          exact stepPRs_of_mem now source ledger d T hm
        · push_neg at hex
          rw [foldl_stepPRs_map_comm now source ledger D d T hcov hex, ihT]
          have hm' : d.key ∈ idsOf (T.map (overwriteEntry now d)) := by
            rw [idsOf_map_overwrite]; exact hm
          rw [stepPRs_of_mem now source ledger d _ hm', List.map_map]
          exact List.map_congr_left fun p _ => overwrite_overwrite_self now d p
      · cases hi : isRecentlyIgnored now d.key ledger with
        | true =>
            rw [stepPRs_of_ignored now source ledger d T hm hi, ihT]
            exact stepPRs_of_ignored now source ledger d T hm hi
        | false =>
            rw [stepPRs_of_new now source ledger d T hm hi]
            have hne : ∀ x ∈ D, x.key ≠ (mkTempPR now source d).id := by
              intro x hx
              rw [mkTempPR_id]
              intro hk
              rcases hcov x hx with hmx | hix
              · exact hm (hk ▸ hmx)
              · rw [hk] at hix
                rw [hi] at hix
                exact Bool.false_ne_true hix
            rw [foldl_stepPRs_append_comm now source ledger D T _ hcov hne, ihT]
            have hmem : d.key ∈ idsOf (T ++ [mkTempPR now source d]) := by
              unfold idsOf
              rw [List.map_append]
              exact List.mem_append_right _ (by simp [mkTempPR_id])
            rw [stepPRs_of_mem now source ledger d _ hmem, List.map_append,
              map_overwrite_of_not_mem now d T hm]
            simp [overwrite_mkTempPR]

/-- C1.  Idempotent upsert: folding the same discovered batch through
`pollSource`'s per-PR discovery step twice (at the same poll time) yields
exactly the state produced by folding it once — no PR is inserted twice, no
column or reconciliation-owned field is reset, and `lastCheckedAt` is merely
refreshed to the same value. -/
theorem upsert_idempotent (now : Int) (source : PRSource) (S : InboxState)
    (D : List GitHubSearchPR) :
    processDiscoveredBatch now source (processDiscoveredBatch now source S D) D =
      processDiscoveredBatch now source S D := by
  rw [processDiscoveredBatch_eq_foldl now source S D]
  rw [processDiscoveredBatch_eq_foldl now source _ D]
  show ({ S with prs := _ } : InboxState) = _
  rw [foldl_stepPRs_idem now source S.ignoredPRIds D S.prs]

theorem forall₂_map_self {α β : Type} (R : α → β → Prop) (f : α → β)
    (l : List α) (h : ∀ x ∈ l, R x (f x)) : List.Forall₂ R l (l.map f) := by
  induction l with
  | nil => exact List.Forall₂.nil
  | cons a l ih =>
      exact List.Forall₂.cons (h a (List.mem_cons_self a l))
        (ih fun x hx => h x (List.mem_cons_of_mem a hx))

/-- C2.  Rediscovery preserves reconciliation-owned fields: when an entry
with the discovered PR's identity key already exists, the discovery step
pairs every stored entry with its successor so that entries with the key get
exactly `title`, `headSha` and `lastCheckedAt` replaced (everything else,
in particular `column`, `addedAt`, `reviewedAt` and `doneAt`, is carried
over), other entries are untouched, and the sources and ignore ledger are
unchanged. -/
theorem rediscovery_preserves_fields (now : Int) (source : PRSource)
    (S : InboxState) (d : GitHubSearchPR)
    (h : ∃ p ∈ S.prs, p.id = d.key) :
    (processDiscovered now source S d).sources = S.sources ∧
    (processDiscovered now source S d).ignoredPRIds = S.ignoredPRIds ∧
    List.Forall₂ (fun p q =>
        (p.id = d.key →
          q = { p with title := d.title, headSha := d.headSha, lastCheckedAt := now }) ∧
        (p.id ≠ d.key → q = p) ∧
        q.column = p.column ∧ q.addedAt = p.addedAt ∧
        q.reviewedAt = p.reviewedAt ∧ q.doneAt = p.doneAt)
      S.prs (processDiscovered now source S d).prs := by
  have hmem : d.key ∈ idsOf S.prs := by
    obtain ⟨p, hp, hpk⟩ := h
    exact List.mem_map.mpr ⟨p, hp, hpk⟩
  rw [processDiscovered_eq_stepPRs, stepPRs_of_mem now source S.ignoredPRIds d S.prs hmem]
  refine ⟨rfl, rfl, ?_⟩
  apply forall₂_map_self
  intro p _
  by_cases hpk : p.id = d.key
  · unfold overwriteEntry
    rw [if_pos hpk]
    exact ⟨fun _ => rfl, fun hn => absurd hpk hn, rfl, rfl, rfl, rfl⟩
  · rw [overwriteEntry_of_ne now d p hpk]
    exact ⟨fun hk => absurd hk hpk, fun _ => rfl, rfl, rfl, rfl, rfl⟩

theorem mem_idsOf_foldl_stepPRs (now : Int) (source : PRSource)
    (ledger : List (String × Int)) (D : List GitHubSearchPR) (l : List InboxPR)
    (k : String) (h : k ∈ idsOf l) :
    k ∈ idsOf (D.foldl (stepPRs now source ledger) l) := by
  induction D generalizing l with
  | nil => exact h
  | cons x D ih =>
      rw [List.foldl_cons]
      exact ih _ (mem_idsOf_stepPRs now source ledger x l k h)

theorem foldl_stepPRs_no_key (now : Int) (source : PRSource)
    (ledger : List (String × Int)) (D : List GitHubSearchPR) (l : List InboxPR)
    (K : String) (habs : K ∉ idsOf l)
    (hi : isRecentlyIgnored now K ledger = true) :
    K ∉ idsOf (D.foldl (stepPRs now source ledger) l) := by
  induction D generalizing l with
  | nil => exact habs
  | cons x D ih =>
      rw [List.foldl_cons]
      apply ih
      by_cases hxk : x.key = K
      · rw [stepPRs_of_ignored now source ledger x l (by rw [hxk]; exact habs)
          (by rw [hxk]; exact hi)]
        exact habs
      · by_cases hm : x.key ∈ idsOf l
        · rw [stepPRs_of_mem now source ledger x l hm, idsOf_map_overwrite]
          exact habs
        · cases hi2 : isRecentlyIgnored now x.key ledger with
          | true =>
              rw [stepPRs_of_ignored now source ledger x l hm hi2]
              exact habs
          | false =>
              rw [stepPRs_of_new now source ledger x l hm hi2]
              unfold idsOf at habs ⊢
              rw [List.map_append]
              intro hmm
              rcases List.mem_append.mp hmm with hin | hin
              · exact habs hin
              · simp [mkTempPR_id] at hin
                exact hxk hin.symm

theorem key_mem_foldl_stepPRs (now : Int) (source : PRSource)
    (ledger : List (String × Int)) (D : List GitHubSearchPR) (l : List InboxPR)
    (d : GitHubSearchPR) (hd : d ∈ D)
    (hi : isRecentlyIgnored now d.key ledger = false) :
    d.key ∈ idsOf (D.foldl (stepPRs now source ledger) l) := by
  induction D generalizing l with
  | nil => cases hd
  | cons x D ih =>
      rw [List.foldl_cons]
      rcases List.mem_cons.mp hd with h | h
      · subst h
        rcases covered_stepPRs_self now source ledger d l with hm | hx
        · exact mem_idsOf_foldl_stepPRs now source ledger D _ d.key hm
        · rw [hi] at hx
          exact absurd hx Bool.false_ne_true
      · exact ih _ h

theorem isRecentlyIgnored_eq_true_iff (now : Int) (K : String)
    (ledger : List (String × Int)) :
    isRecentlyIgnored now K ledger = true ↔
      ∃ t, ledger.lookup K = some t ∧ t > now - IGNORE_DURATION_MS := by
  unfold isRecentlyIgnored
  cases h : ledger.lookup K with
  | none => simp
  | some t => simp

/-- C3.  Ignore suppression iff live: starting from a state with no entry
under the discovered PR's key, folding a batch containing that PR leaves an
entry with the key in `prs` if and only if the ignore ledger has no entry
for the key with timestamp strictly within the last 7 days; a live entry
suppresses the add, an older entry does not. -/
theorem ignore_suppression_iff_live (now : Int) (source : PRSource)
    (S : InboxState) (D : List GitHubSearchPR) (d : GitHubSearchPR)
    (habs : ∀ p ∈ S.prs, p.id ≠ d.key) (hd : d ∈ D) :
    ((∃ q ∈ (processDiscoveredBatch now source S D).prs, q.id = d.key) ↔
      ¬ ∃ t, S.ignoredPRIds.lookup d.key = some t ∧
        t > now - IGNORE_DURATION_MS) := by
  rw [processDiscoveredBatch_eq_foldl]
  have habs' : d.key ∉ idsOf S.prs := by
    intro hmm
    obtain ⟨p, hp, hpk⟩ := List.mem_map.mp hmm
    exact habs p hp hpk
  have hiff : (∃ q ∈ D.foldl (stepPRs now source S.ignoredPRIds) S.prs, q.id = d.key) ↔
      d.key ∈ idsOf (D.foldl (stepPRs now source S.ignoredPRIds) S.prs) := by
    unfold idsOf
    exact ⟨fun ⟨q, hq, hk⟩ => List.mem_map.mpr ⟨q, hq, hk⟩,
      fun hmm => List.mem_map.mp hmm⟩
  show (∃ q ∈ D.foldl (stepPRs now source S.ignoredPRIds) S.prs, q.id = d.key) ↔ _
  rw [hiff, ← isRecentlyIgnored_eq_true_iff now d.key S.ignoredPRIds]
  cases hi : isRecentlyIgnored now d.key S.ignoredPRIds with
  | true =>
      exact iff_of_false
        (foldl_stepPRs_no_key now source S.ignoredPRIds D S.prs d.key habs' hi)
        (by simp)
  | false =>
      exact iff_of_true
        (key_mem_foldl_stepPRs now source S.ignoredPRIds D S.prs d hd hi)
        (by simp)

/-- A sample tracked PR used in concrete witnesses. -/
def samplePR : InboxPR :=
  { id := "a/b#1", owner := "a", repo := "b", number := 1, title := "t0",
    author := "u", url := "http://x", headSha := "s0", column := .reviewed,
    source := .githubSearch, sourceId := "src1", addedAt := 10,
    lastCheckedAt := 10, reviewedAt := some 20 }

/-- A sample configured source used in concrete witnesses. -/
def sampleSource : PRSource :=
  .githubSearch { id := "src1", name := "mine", query := "is:pr", enabled := true }

/-- A sample inbox state tracking `samplePR`. -/
def sampleState : InboxState :=
  { prs := [samplePR], sources := [sampleSource], lastPollAt := none,
    pollIntervalMs := 300000, ignoredPRIds := [] }

/-- A sample discovered PR with the same identity key as `samplePR`. -/
def sampleDiscovered : GitHubSearchPR :=
  { owner := "a", repo := "b", number := 1, title := "t1", author := "u",
    url := "http://x", headSha := "s1", state := .openPR }

/-- A sample inbox state tracking nothing. -/
def emptyState : InboxState :=
  { prs := [], sources := [sampleSource], lastPollAt := none,
    pollIntervalMs := 300000, ignoredPRIds := [] }

/-- Witness instantiating `rediscovery_preserves_fields` at a concrete
state and discovered PR. -/
theorem rediscovery_preserves_fields_witness :
    (∃ p ∈ sampleState.prs, p.id = sampleDiscovered.key) ∧
    ((processDiscovered 100 sampleSource sampleState sampleDiscovered).sources =
        sampleState.sources ∧
      (processDiscovered 100 sampleSource sampleState sampleDiscovered).ignoredPRIds =
        sampleState.ignoredPRIds ∧
      List.Forall₂ (fun p q =>
          (p.id = sampleDiscovered.key →
            q = { p with title := sampleDiscovered.title, headSha := sampleDiscovered.headSha, lastCheckedAt := 100 }) ∧
          (p.id ≠ sampleDiscovered.key → q = p) ∧
          q.column = p.column ∧ q.addedAt = p.addedAt ∧
          q.reviewedAt = p.reviewedAt ∧ q.doneAt = p.doneAt)
        sampleState.prs
        (processDiscovered 100 sampleSource sampleState sampleDiscovered).prs) :=
  ⟨by decide,
   rediscovery_preserves_fields 100 sampleSource sampleState sampleDiscovered
     (by decide)⟩

/-- Witness instantiating `ignore_suppression_iff_live` at a concrete empty
state with an empty ignore ledger. -/
theorem ignore_suppression_iff_live_witness :
    (∀ p ∈ emptyState.prs, p.id ≠ sampleDiscovered.key) ∧
    sampleDiscovered ∈ [sampleDiscovered] ∧
    ((∃ q ∈ (processDiscoveredBatch 100 sampleSource emptyState
        [sampleDiscovered]).prs, q.id = sampleDiscovered.key) ↔
      ¬ ∃ t, emptyState.ignoredPRIds.lookup sampleDiscovered.key = some t ∧
        t > 100 - IGNORE_DURATION_MS) :=
  ⟨by decide, by decide,
   ignore_suppression_iff_live 100 sampleSource emptyState [sampleDiscovered]
     sampleDiscovered (by decide) (by decide)⟩

theorem moveEntry_id (now : Int) (prId : String) (column : KanbanColumn)
    (p : InboxPR) : (moveEntry now prId column p).id = p.id := by
  unfold moveEntry
  by_cases h : p.id = prId
  · rw [if_pos h]
    split
    · rfl
    · split <;> rfl
  · rw [if_neg h]

theorem moveEntry_of_ne (now : Int) (prId : String) (column : KanbanColumn)
    (p : InboxPR) (h : p.id ≠ prId) : moveEntry now prId column p = p := by
  unfold moveEntry
  rw [if_neg h]

theorem moveEntry_done (now : Int) (prId : String) (p : InboxPR)
    (h : p.id = prId) :
    moveEntry now prId .done p = { p with column := .done, doneAt := some now } := by
  unfold moveEntry
  rw [if_pos h, if_neg (by decide), if_pos rfl]

theorem moveEntry_needsAttention (now : Int) (prId : String) (p : InboxPR)
    (h : p.id = prId) :
    moveEntry now prId .needsAttention p = { p with column := .needsAttention } := by
  unfold moveEntry
  rw [if_pos h, if_neg (by decide), if_neg (by decide)]

theorem shaEntry_id (now : Int) (prId : String) (sha : String) (p : InboxPR) :
    (shaEntry now prId sha p).id = p.id := by
  unfold shaEntry
  split <;> rfl

theorem shaEntry_of_ne (now : Int) (prId : String) (sha : String) (p : InboxPR)
    (h : p.id ≠ prId) : shaEntry now prId sha p = p := by
  unfold shaEntry
  rw [if_neg h]

theorem shaEntry_of_eq (now : Int) (prId : String) (sha : String) (p : InboxPR)
    (h : p.id = prId) :
    shaEntry now prId sha p = { p with headSha := sha, lastCheckedAt := now } := by
  unfold shaEntry
  rw [if_pos h]

theorem statusStep_none (now : Int) (statusOf : InboxPR → Option PRStatusResult)
    (st : InboxState) (pr : InboxPR) (hst : statusOf pr = none) :
    statusStep now statusOf st pr = st := by
  unfold statusStep
  rw [hst]

theorem statusStep_merged (now : Int) (statusOf : InboxPR → Option PRStatusResult)
    (st : InboxState) (pr : InboxPR) (status : PRStatusResult)
    (hst : statusOf pr = some status)
    (hm : status.state = .mergedPR ∨ status.state = .closedPR) :
    statusStep now statusOf st pr = movePRToColumn now st pr.id .done := by
  unfold statusStep
  rw [hst]
  dsimp only
  exact if_pos hm

theorem statusStep_reviewed_changed (now : Int)
    (statusOf : InboxPR → Option PRStatusResult) (st : InboxState) (pr : InboxPR)
    (status : PRStatusResult) (hst : statusOf pr = some status)
    (hop : ¬(status.state = .mergedPR ∨ status.state = .closedPR))
    (hne : pr.headSha ≠ "") (hsha : status.headSha ≠ pr.headSha)
    (hcol : pr.column = .reviewed) :
    (statusStep now statusOf st pr).prs =
      st.prs.map
        (shaEntry now pr.id status.headSha ∘ moveEntry now pr.id .needsAttention) := by
  unfold statusStep
  rw [hst]
  dsimp only
  have hc : pr.headSha ≠ "" ∧ status.headSha ≠ pr.headSha ∧ pr.column = .reviewed :=
    ⟨hne, hsha, hcol⟩
  rw [if_neg hop, if_pos hc, if_pos hsha]
  show ((movePRToColumn now st pr.id .needsAttention).prs.map _) = _
  unfold movePRToColumn
  rw [List.map_map]

theorem statusStep_changed_nomove (now : Int)
    (statusOf : InboxPR → Option PRStatusResult) (st : InboxState) (pr : InboxPR)
    (status : PRStatusResult) (hst : statusOf pr = some status)
    (hop : ¬(status.state = .mergedPR ∨ status.state = .closedPR))
    (hcond : ¬(pr.headSha ≠ "" ∧ status.headSha ≠ pr.headSha ∧ pr.column = .reviewed))
    (hsha : status.headSha ≠ pr.headSha) :
    (statusStep now statusOf st pr).prs =
      st.prs.map (shaEntry now pr.id status.headSha) := by
  unfold statusStep
  rw [hst]
  dsimp only
  rw [if_neg hop, if_neg hcond, if_pos hsha]

theorem statusStep_same_sha (now : Int)
    (statusOf : InboxPR → Option PRStatusResult) (st : InboxState) (pr : InboxPR)
    (status : PRStatusResult) (hst : statusOf pr = some status)
    (hop : ¬(status.state = .mergedPR ∨ status.state = .closedPR))
    (hsha : status.headSha = pr.headSha) :
    statusStep now statusOf st pr = st := by
  unfold statusStep
  rw [hst]
  dsimp only
  have hc1 : ¬(pr.headSha ≠ "" ∧ status.headSha ≠ pr.headSha ∧ pr.column = .reviewed) :=
    fun h => h.2.1 hsha
  have hc2 : ¬(status.headSha ≠ pr.headSha) := fun h => h hsha
  rw [if_neg hop, if_neg hc1, if_neg hc2]

theorem statusStep_map_form (now : Int) (statusOf : InboxPR → Option PRStatusResult)
    (st : InboxState) (pr : InboxPR) :
    ∃ g, (statusStep now statusOf st pr).prs = st.prs.map g ∧
      (∀ p, (g p).id = p.id) ∧ (∀ p, p.id ≠ pr.id → g p = p) := by
  cases hst : statusOf pr with
  | none =>
      refine ⟨id, ?_, fun _ => rfl, fun _ _ => rfl⟩
      rw [statusStep_none now statusOf st pr hst, List.map_id]
  | some status =>
      by_cases hm : status.state = .mergedPR ∨ status.state = .closedPR
      · refine ⟨moveEntry now pr.id .done, ?_, moveEntry_id now pr.id .done,
          fun p hp => moveEntry_of_ne now pr.id .done p hp⟩
        rw [statusStep_merged now statusOf st pr status hst hm]
        rfl
      · by_cases hsha : status.headSha = pr.headSha
        · refine ⟨id, ?_, fun _ => rfl, fun _ _ => rfl⟩
          rw [statusStep_same_sha now statusOf st pr status hst hm hsha, List.map_id]
        · by_cases hcond : pr.headSha ≠ "" ∧ status.headSha ≠ pr.headSha ∧
              pr.column = .reviewed
          · refine ⟨shaEntry now pr.id status.headSha ∘
                moveEntry now pr.id .needsAttention, ?_, ?_, ?_⟩
            · exact statusStep_reviewed_changed now statusOf st pr status hst hm
                hcond.1 hcond.2.1 hcond.2.2
            · intro p
              show (shaEntry now pr.id status.headSha
                  (moveEntry now pr.id .needsAttention p)).id = p.id
              rw [shaEntry_id, moveEntry_id]
            · intro p hp
              show shaEntry now pr.id status.headSha
                  (moveEntry now pr.id .needsAttention p) = p
              rw [moveEntry_of_ne now pr.id .needsAttention p hp,
                shaEntry_of_ne now pr.id status.headSha p hp]
          · refine ⟨shaEntry now pr.id status.headSha, ?_,
              shaEntry_id now pr.id status.headSha,
              fun p hp => shaEntry_of_ne now pr.id status.headSha p hp⟩
            exact statusStep_changed_nomove now statusOf st pr status hst hm hcond hsha

theorem foldl_statusStep_frame (now : Int)
    (statusOf : InboxPR → Option PRStatusResult) (L : List InboxPR) :
    ∀ (st : InboxState) (i : String), (∀ x ∈ L, x.id ≠ i) →
    ∃ G, (L.foldl (statusStep now statusOf) st).prs = st.prs.map G ∧
      (∀ p, (G p).id = p.id) ∧ (∀ p, p.id = i → G p = p) := by
  induction L with
  | nil =>
      intro st i _
      exact ⟨id, (List.map_id st.prs).symm, fun _ => rfl, fun _ _ => rfl⟩
  | cons x L ih =>
      intro st i hL
      have hxi : x.id ≠ i := hL x (List.mem_cons_self x L)
      obtain ⟨g, hg, hgid, hgoff⟩ := statusStep_map_form now statusOf st x
      obtain ⟨G, hG, hGid, hGfix⟩ := ih (statusStep now statusOf st x) i
        (fun z hz => hL z (List.mem_cons_of_mem x hz))
      refine ⟨G ∘ g, ?_, ?_, ?_⟩
      · rw [List.foldl_cons, hG, hg, List.map_map]
      · intro p
        show (G (g p)).id = p.id
        rw [hGid, hgid]
      · intro p hpi
        show G (g p) = p
        have hgp : g p = p := hgoff p (by rw [hpi]; exact Ne.symm hxi)
        rw [hgp, hGfix p hpi]

theorem checkPRStatus_entry (now : Int) (statusOf : InboxPR → Option PRStatusResult)
    (S : InboxState) (p : InboxPR) (g : InboxPR → InboxPR)
    (hnd : (S.prs.map InboxPR.id).Nodup) (hp : p ∈ S.prs) (hcol : p.column ≠ .done)
    (hgid : ∀ r, (g r).id = r.id) (hgoff : ∀ r, r.id ≠ p.id → g r = r)
    (hstep : ∀ st : InboxState, (statusStep now statusOf st p).prs = st.prs.map g) :
    g p ∈ (checkPRStatusChanges now statusOf S).prs ∧
    ∀ q ∈ (checkPRStatusChanges now statusOf S).prs, q.id = p.id → q = g p := by
  unfold checkPRStatusChanges
  have hpA : p ∈ S.prs.filter (fun pr => pr.column ≠ .done) :=
    List.mem_filter.mpr ⟨hp, by simpa using hcol⟩
  obtain ⟨L1, L2, hA⟩ := List.append_of_mem hpA
  have hsubA : List.Sublist
      ((S.prs.filter (fun pr => pr.column ≠ .done)).map InboxPR.id)
      (S.prs.map InboxPR.id) :=
    List.Sublist.map _ (List.filter_sublist _)
  have hAnodup : ((S.prs.filter (fun pr => pr.column ≠ .done)).map InboxPR.id).Nodup :=
    List.Nodup.sublist hsubA hnd
  rw [hA, List.map_append, List.map_cons, List.nodup_middle] at hAnodup
  have hpid_notmem : p.id ∉ L1.map InboxPR.id ++ L2.map InboxPR.id :=
    (List.nodup_cons.mp hAnodup).1
  have h1 : ∀ x ∈ L1, x.id ≠ p.id := by
    intro x hx he
    exact hpid_notmem (List.mem_append_left _ (List.mem_map.mpr ⟨x, hx, he⟩))
  have h2 : ∀ x ∈ L2, x.id ≠ p.id := by
    intro x hx he
    exact hpid_notmem (List.mem_append_right _ (List.mem_map.mpr ⟨x, hx, he⟩))
  rw [hA, List.foldl_append, List.foldl_cons]
  obtain ⟨G1, hG1, hG1id, hG1fix⟩ := foldl_statusStep_frame now statusOf L1 S p.id h1
  set st0 := L1.foldl (statusStep now statusOf) S with hst0
  obtain ⟨G2, hG2, hG2id, hG2fix⟩ :=
    foldl_statusStep_frame now statusOf L2 (statusStep now statusOf st0 p) p.id h2
  have hp0 : p ∈ st0.prs := by
    rw [hG1, ← hG1fix p rfl]
    exact List.mem_map_of_mem G1 hp
  have huniq0 : ∀ r ∈ st0.prs, r.id = p.id → r = p := by
    intro r hr hrid
    rw [hG1] at hr
    obtain ⟨r0, hr0, hrr⟩ := List.mem_map.mp hr
    have hr0id : r0.id = p.id := by
      rw [← hrr, hG1id r0] at hrid
      exact hrid
    have hr0p : r0 = p := List.inj_on_of_nodup_map hnd hr0 hp hr0id
    rw [← hrr, hr0p, hG1fix p rfl]
  constructor
  · rw [hG2, hstep st0, ← hG2fix (g p) (hgid p)]
    exact List.mem_map_of_mem G2 (List.mem_map_of_mem g hp0)
  · intro q hq hqid
    rw [hG2] at hq
    obtain ⟨r, hr, hqr⟩ := List.mem_map.mp hq
    have hrid : r.id = p.id := by
      rw [← hqr, hG2id r] at hqid
      exact hqid
    have hqr2 : q = r := by rw [← hqr, hG2fix r hrid]
    rw [hstep st0] at hr
    obtain ⟨r0, hr0, hrr0⟩ := List.mem_map.mp hr
    by_cases h0 : r0.id = p.id
    · rw [hqr2, ← hrr0, huniq0 r0 hr0 h0]
    · exfalso
      rw [← hrr0, hgoff r0 h0] at hrid
      exact h0 hrid

/-- C4.  Merged/closed means done: an active (non-done) PR whose status check
returns merged or closed is moved to the `done` column with `doneAt = now`,
regardless of its prior column; in particular no needs-attention transition
survives for it in the same pass (its final column is `done`). -/
theorem merged_or_closed_means_done (now : Int)
    (statusOf : InboxPR → Option PRStatusResult) (S : InboxState) (p : InboxPR)
    (status : PRStatusResult)
    (hnd : (S.prs.map InboxPR.id).Nodup) (hp : p ∈ S.prs)
    (hcol : p.column ≠ .done) (hst : statusOf p = some status)
    (hm : status.state = .mergedPR ∨ status.state = .closedPR) :
    (∃ q ∈ (checkPRStatusChanges now statusOf S).prs, q.id = p.id) ∧
    ∀ q ∈ (checkPRStatusChanges now statusOf S).prs, q.id = p.id →
      q.column = .done ∧ q.doneAt = some now := by
  have hstep : ∀ st : InboxState,
      (statusStep now statusOf st p).prs = st.prs.map (moveEntry now p.id .done) := by
    intro st
    rw [statusStep_merged now statusOf st p status hst hm]
    rfl
  obtain ⟨hmem, huniq⟩ := checkPRStatus_entry now statusOf S p
    (moveEntry now p.id .done) hnd hp hcol (moveEntry_id now p.id .done)
    (fun r hr => moveEntry_of_ne now p.id .done r hr) hstep
  constructor
  · exact ⟨moveEntry now p.id .done p, hmem, moveEntry_id now p.id .done p⟩
  · intro q hq hqid
    rw [huniq q hq hqid, moveEntry_done now p.id p rfl]
    exact ⟨rfl, rfl⟩

/-- C6.  Done is terminal: a PR already in the `done` column is excluded from
the status-check pass entirely — under the id-uniqueness invariant its entry
comes out of `checkPRStatusChanges` completely unchanged (in particular its
column never changes), so done PRs only leave via retention sweep or ignore. -/
theorem done_is_terminal (now : Int) (statusOf : InboxPR → Option PRStatusResult)
    (S : InboxState) (p : InboxPR)
    (hnd : (S.prs.map InboxPR.id).Nodup) (hp : p ∈ S.prs)
    (hcol : p.column = .done) :
    p ∈ (checkPRStatusChanges now statusOf S).prs ∧
    ∀ q ∈ (checkPRStatusChanges now statusOf S).prs, q.id = p.id → q = p := by
  unfold checkPRStatusChanges
  have hA : ∀ x ∈ S.prs.filter (fun pr => pr.column ≠ .done), x.id ≠ p.id := by
    intro x hx he
    have hxS := (List.mem_filter.mp hx).1
    have hxcol : x.column ≠ .done := by simpa using (List.mem_filter.mp hx).2
    have hxp : x = p := List.inj_on_of_nodup_map hnd hxS hp he
    exact hxcol (by rw [hxp, hcol])
  obtain ⟨G, hG, hGid, hGfix⟩ := foldl_statusStep_frame now statusOf _ S p.id hA
  constructor
  · rw [hG, ← hGfix p rfl]
    exact List.mem_map_of_mem G hp
  · intro q hq hqid
    rw [hG] at hq
    obtain ⟨r, hr, hqr⟩ := List.mem_map.mp hq
    have hrid : r.id = p.id := by
      rw [← hqr, hGid r] at hqid
      exact hqid
    have hrp : r = p := List.inj_on_of_nodup_map hnd hr hp hrid
    rw [← hqr, hrp, hGfix p rfl]

/-- C5.  Needs-attention trigger: a PR in `reviewed` with a non-empty stored
SHA whose status check returns an open state with a different SHA moves to
`needs-attention`; a PR in `inbox` under the same SHA change keeps its
column. -/
theorem needs_attention_trigger (now : Int)
    (statusOf : InboxPR → Option PRStatusResult) (S : InboxState) (p : InboxPR)
    (status : PRStatusResult)
    (hnd : (S.prs.map InboxPR.id).Nodup) (hp : p ∈ S.prs)
    (hst : statusOf p = some status) (hop : status.state = .openPR)
    (hne : p.headSha ≠ "") (hsha : status.headSha ≠ p.headSha) :
    (p.column = .reviewed →
      ∀ q ∈ (checkPRStatusChanges now statusOf S).prs, q.id = p.id →
        q.column = .needsAttention) ∧
    (p.column = .inbox →
      ∀ q ∈ (checkPRStatusChanges now statusOf S).prs, q.id = p.id →
        q.column = .inbox) := by
  have hopn : ¬(status.state = .mergedPR ∨ status.state = .closedPR) := by
    simp [hop]
  constructor
  · intro hcolr
    have hcol : p.column ≠ .done := by rw [hcolr]; decide
    have hstep : ∀ st : InboxState, (statusStep now statusOf st p).prs =
        st.prs.map (shaEntry now p.id status.headSha ∘
          moveEntry now p.id .needsAttention) :=
      fun st => statusStep_reviewed_changed now statusOf st p status hst hopn
        hne hsha hcolr
    obtain ⟨hmem, huniq⟩ := checkPRStatus_entry now statusOf S p
      (shaEntry now p.id status.headSha ∘ moveEntry now p.id .needsAttention)
      hnd hp hcol
      (fun r => by
        show (shaEntry now p.id status.headSha
          (moveEntry now p.id .needsAttention r)).id = r.id
        rw [shaEntry_id, moveEntry_id])
      (fun r hr => by
        show shaEntry now p.id status.headSha
          (moveEntry now p.id .needsAttention r) = r
        rw [moveEntry_of_ne now p.id .needsAttention r hr,
          shaEntry_of_ne now p.id status.headSha r hr])
      hstep
    intro q hq hqid
    rw [huniq q hq hqid]
    show (shaEntry now p.id status.headSha
      (moveEntry now p.id .needsAttention p)).column = _
    rw [moveEntry_needsAttention now p.id p rfl,
      shaEntry_of_eq now p.id status.headSha { p with column := .needsAttention } rfl]
  · intro hcoli
    have hcol : p.column ≠ .done := by rw [hcoli]; decide
    have hcond : ¬(p.headSha ≠ "" ∧ status.headSha ≠ p.headSha ∧
        p.column = .reviewed) := by
      rintro ⟨-, -, hc⟩
      rw [hcoli] at hc
      exact absurd hc (by decide)
    have hstep : ∀ st : InboxState, (statusStep now statusOf st p).prs =
        st.prs.map (shaEntry now p.id status.headSha) :=
      fun st => statusStep_changed_nomove now statusOf st p status hst hopn
        hcond hsha
    obtain ⟨hmem, huniq⟩ := checkPRStatus_entry now statusOf S p
      (shaEntry now p.id status.headSha) hnd hp hcol
      (shaEntry_id now p.id status.headSha)
      (fun r hr => shaEntry_of_ne now p.id status.headSha r hr) hstep
    intro q hq hqid
    rw [huniq q hq hqid, shaEntry_of_eq now p.id status.headSha p rfl]
    exact hcoli

/-- C7 (amended).  SHA overwrite on open status: for an active PR whose
lookup succeeded with an open state, the stored `headSha` is overwritten and
`lastCheckedAt` bumped exactly when the fetched SHA differs from the stored
one — with no non-empty requirement on the stored SHA (the emptiness guard
only protects the needs-attention transition, not the SHA update). -/
theorem sha_overwrite_on_open (now : Int)
    (statusOf : InboxPR → Option PRStatusResult) (S : InboxState) (p : InboxPR)
    (status : PRStatusResult)
    (hnd : (S.prs.map InboxPR.id).Nodup) (hp : p ∈ S.prs)
    (hcol : p.column ≠ .done) (hst : statusOf p = some status)
    (hop : status.state = .openPR) :
    ∀ q ∈ (checkPRStatusChanges now statusOf S).prs, q.id = p.id →
      (status.headSha ≠ p.headSha →
        q.headSha = status.headSha ∧ q.lastCheckedAt = now) ∧
      (status.headSha = p.headSha →
        q.headSha = p.headSha ∧ q.lastCheckedAt = p.lastCheckedAt) := by
  have hopn : ¬(status.state = .mergedPR ∨ status.state = .closedPR) := by
    simp [hop]
  by_cases hsha : status.headSha = p.headSha
  · have hstep : ∀ st : InboxState,
        (statusStep now statusOf st p).prs = st.prs.map id := by
      intro st
      rw [statusStep_same_sha now statusOf st p status hst hopn hsha, List.map_id]
    obtain ⟨hmem, huniq⟩ := checkPRStatus_entry now statusOf S p id hnd hp hcol
      (fun _ => rfl) (fun _ _ => rfl) hstep
    intro q hq hqid
    rw [huniq q hq hqid]
    exact ⟨fun h => absurd hsha h, fun _ => ⟨rfl, rfl⟩⟩
  · by_cases hcond : p.headSha ≠ "" ∧ status.headSha ≠ p.headSha ∧
        p.column = .reviewed
    · have hstep : ∀ st : InboxState, (statusStep now statusOf st p).prs =
          st.prs.map (shaEntry now p.id status.headSha ∘
            moveEntry now p.id .needsAttention) :=
        fun st => statusStep_reviewed_changed now statusOf st p status hst hopn
          hcond.1 hcond.2.1 hcond.2.2
      obtain ⟨hmem, huniq⟩ := checkPRStatus_entry now statusOf S p
        (shaEntry now p.id status.headSha ∘ moveEntry now p.id .needsAttention)
        hnd hp hcol
        (fun r => by
          show (shaEntry now p.id status.headSha
            (moveEntry now p.id .needsAttention r)).id = r.id
          rw [shaEntry_id, moveEntry_id])
        (fun r hr => by
          show shaEntry now p.id status.headSha
            (moveEntry now p.id .needsAttention r) = r
          rw [moveEntry_of_ne now p.id .needsAttention r hr,
            shaEntry_of_ne now p.id status.headSha r hr])
        hstep
      intro q hq hqid
      rw [huniq q hq hqid]
      refine ⟨fun _ => ?_, fun h => absurd h hsha⟩
      have hcomp : (shaEntry now p.id status.headSha ∘
            moveEntry now p.id .needsAttention) p =
          shaEntry now p.id status.headSha
            (moveEntry now p.id .needsAttention p) := rfl
      rw [hcomp, moveEntry_needsAttention now p.id p rfl,
        shaEntry_of_eq now p.id status.headSha { p with column := .needsAttention } rfl]
      exact ⟨rfl, rfl⟩
    · have hstep : ∀ st : InboxState, (statusStep now statusOf st p).prs =
          st.prs.map (shaEntry now p.id status.headSha) :=
        fun st => statusStep_changed_nomove now statusOf st p status hst hopn
          hcond hsha
      obtain ⟨hmem, huniq⟩ := checkPRStatus_entry now statusOf S p
        (shaEntry now p.id status.headSha) hnd hp hcol
        (shaEntry_id now p.id status.headSha)
        (fun r hr => shaEntry_of_ne now p.id status.headSha r hr) hstep
      intro q hq hqid
      rw [huniq q hq hqid, shaEntry_of_eq now p.id status.headSha p rfl]
      exact ⟨fun _ => ⟨rfl, rfl⟩, fun h => absurd h hsha⟩

/-- A PR with an empty stored SHA (a freshly manually added placeholder). -/
def emptyShaPR : InboxPR :=
  { id := "a/b#1", owner := "a", repo := "b", number := 1, title := "t0",
    author := "u", url := "http://x", headSha := "", column := .inbox,
    source := .githubSearch, sourceId := "src1", addedAt := 10,
    lastCheckedAt := 10 }

/-- A sample state tracking only `emptyShaPR`. -/
def emptyShaState : InboxState :=
  { prs := [emptyShaPR], sources := [sampleSource], lastPollAt := none,
    pollIntervalMs := 300000, ignoredPRIds := [] }

/-- A sample status result with an open state and SHA `"s1"`. -/
def openRes : PRStatusResult := { headSha := "s1", state := .openPR }

/-- A sample status result with a merged state and SHA `"s1"`. -/
def mergedRes : PRStatusResult := { headSha := "s1", state := .mergedPR }

/-- A status function whose every lookup succeeds with `openRes`. -/
def openStatus : InboxPR → Option PRStatusResult := fun _ => some openRes

/-- A status function whose every lookup succeeds with `mergedRes`. -/
def mergedStatus : InboxPR → Option PRStatusResult := fun _ => some mergedRes

/-- C7 counterexample: a PR whose stored `headSha` is empty does NOT keep it
unchanged through the status pass — with an open status carrying SHA `"s1"`,
the pass overwrites the empty stored SHA, refuting the claim that a PR with
an empty stored `headSha` keeps it unchanged. -/
theorem sha_guard_empty_counterexample :
    ¬ ∀ q ∈ (checkPRStatusChanges 50 openStatus emptyShaState).prs,
        q.id = emptyShaPR.id → q.headSha = emptyShaPR.headSha := by decide

/-- Witness instantiating `merged_or_closed_means_done` at a concrete
reviewed PR whose status comes back merged. -/
theorem merged_or_closed_means_done_witness :
    ((sampleState.prs.map InboxPR.id).Nodup ∧ samplePR ∈ sampleState.prs ∧
      samplePR.column ≠ .done ∧ mergedStatus samplePR = some mergedRes ∧
      (mergedRes.state = .mergedPR ∨ mergedRes.state = .closedPR)) ∧
    (∃ q ∈ (checkPRStatusChanges 50 mergedStatus sampleState).prs,
      q.id = samplePR.id) ∧
    ∀ q ∈ (checkPRStatusChanges 50 mergedStatus sampleState).prs,
      q.id = samplePR.id → q.column = .done ∧ q.doneAt = some 50 :=
  ⟨by decide,
   merged_or_closed_means_done 50 mergedStatus sampleState samplePR mergedRes
     (by decide) (by decide) (by decide) rfl (by decide)⟩

/-- Witness instantiating `needs_attention_trigger` at a concrete reviewed
PR with stored SHA `"s0"` and fetched open SHA `"s1"`. -/
theorem needs_attention_trigger_witness :
    ((sampleState.prs.map InboxPR.id).Nodup ∧ samplePR ∈ sampleState.prs ∧
      openStatus samplePR = some openRes ∧ openRes.state = .openPR ∧
      samplePR.headSha ≠ "" ∧ openRes.headSha ≠ samplePR.headSha) ∧
    (samplePR.column = .reviewed →
      ∀ q ∈ (checkPRStatusChanges 50 openStatus sampleState).prs,
        q.id = samplePR.id → q.column = .needsAttention) ∧
    (samplePR.column = .inbox →
      ∀ q ∈ (checkPRStatusChanges 50 openStatus sampleState).prs,
        q.id = samplePR.id → q.column = .inbox) :=
  ⟨by decide,
   needs_attention_trigger 50 openStatus sampleState samplePR openRes
     (by decide) (by decide) rfl rfl (by decide) (by decide)⟩

/-- A sample PR already in the `done` column. -/
def donePR : InboxPR :=
  { id := "c/d#2", owner := "c", repo := "d", number := 2, title := "t2",
    author := "u", url := "http://y", headSha := "s3", column := .done,
    source := .slack, sourceId := "src2", addedAt := 1, lastCheckedAt := 2,
    doneAt := some 3 }

/-- A sample state holding a done PR next to an active one. -/
def doneState : InboxState :=
  { prs := [donePR, samplePR], sources := [sampleSource], lastPollAt := none,
    pollIntervalMs := 300000, ignoredPRIds := [] }

/-- Witness instantiating `done_is_terminal` at a concrete done PR. -/
theorem done_is_terminal_witness :
    ((doneState.prs.map InboxPR.id).Nodup ∧ donePR ∈ doneState.prs ∧
      donePR.column = .done) ∧
    donePR ∈ (checkPRStatusChanges 50 openStatus doneState).prs ∧
    ∀ q ∈ (checkPRStatusChanges 50 openStatus doneState).prs,
      q.id = donePR.id → q = donePR :=
  ⟨by decide,
   done_is_terminal 50 openStatus doneState donePR (by decide) (by decide) rfl⟩

/-- Witness instantiating `sha_overwrite_on_open` at the concrete
empty-stored-SHA PR: the fetched SHA differs, so the stored SHA is
overwritten and `lastCheckedAt` bumped. -/
theorem sha_overwrite_on_open_witness :
    ((emptyShaState.prs.map InboxPR.id).Nodup ∧
      emptyShaPR ∈ emptyShaState.prs ∧ emptyShaPR.column ≠ .done ∧
      openStatus emptyShaPR = some openRes ∧ openRes.state = .openPR) ∧
    ∀ q ∈ (checkPRStatusChanges 50 openStatus emptyShaState).prs,
      q.id = emptyShaPR.id →
      (openRes.headSha ≠ emptyShaPR.headSha →
        q.headSha = openRes.headSha ∧ q.lastCheckedAt = 50) ∧
      (openRes.headSha = emptyShaPR.headSha →
        q.headSha = emptyShaPR.headSha ∧
          q.lastCheckedAt = emptyShaPR.lastCheckedAt) :=
  ⟨by decide,
   sha_overwrite_on_open 50 openStatus emptyShaState emptyShaPR openRes
     (by decide) (by decide) (by decide) rfl rfl⟩

/-- C8 counterexample: with the busy flag set, a manual (forced) poll request
still runs — `runPoll`'s entry gate checks `isPolling && !force`, so a forced
request is not stopped by the busy flag, refuting the claim that a manual
request issued while a cycle is in flight does not start a second cycle. -/
theorem manual_respects_busy_counterexample :
    (runPollGate { isPolling := true, rateLimitUntil := 0 } true 0).1 =
      PollOutcome.ran := by decide

/-- C8 (amended).  The `runPoll` gate: a manual (forced) request always runs
and resets the backoff deadline to zero, even while a cycle is in flight (it
bypasses the busy flag rather than respecting it); an automatic request is
skipped while a cycle is in flight; an idle automatic request before the
backoff deadline is skipped as rate-limited without reaching the polling
body, so no adapter is invoked. -/
theorem poll_gate_spec (s : SchedulerState) (now : Int) :
    runPollGate s true now = (.ran, { isPolling := true, rateLimitUntil := 0 }) ∧
    (s.isPolling = true → runPollGate s false now = (.skippedBusy, s)) ∧
    (s.isPolling = false → s.rateLimitUntil > now →
      runPollGate s false now = (.skippedRateLimited, s)) := by
  refine ⟨?_, ?_, ?_⟩
  · simp [runPollGate]
  · intro h
    simp [runPollGate, h]
  · intro h hr
    simp [runPollGate, h, hr]

/-- Witness instantiating `poll_gate_spec` at concrete scheduler states: a
busy state with pending backoff for the manual and busy-automatic cases, and
an idle backed-off state for the rate-limited case. -/
theorem poll_gate_spec_witness :
    runPollGate { isPolling := true, rateLimitUntil := 7 } true 0 =
      (.ran, { isPolling := true, rateLimitUntil := 0 }) ∧
    runPollGate { isPolling := true, rateLimitUntil := 7 } false 0 =
      (.skippedBusy, { isPolling := true, rateLimitUntil := 7 }) ∧
    runPollGate { isPolling := false, rateLimitUntil := 7 } false 0 =
      (.skippedRateLimited, { isPolling := false, rateLimitUntil := 7 }) :=
  ⟨(poll_gate_spec { isPolling := true, rateLimitUntil := 7 } 0).1,
   (poll_gate_spec { isPolling := true, rateLimitUntil := 7 } 0).2.1 rfl,
   (poll_gate_spec { isPolling := false, rateLimitUntil := 7 } 0).2.2 rfl
     (by decide)⟩

theorem keepDone_of_not_done (now : Int) (pr : InboxPR)
    (h : pr.column ≠ .done) : keepDone now pr = true := by
  unfold keepDone
  cases hcc : pr.column <;> cases hdd : pr.doneAt <;>
    first
      | rfl
      | exact absurd hcc h

theorem keepDone_done_some (now : Int) (pr : InboxPR) (t : Int)
    (h : pr.column = .done) (hd : pr.doneAt = some t) :
    keepDone now pr = decide (t > now - DONE_CLEANUP_MS) := by
  unfold keepDone
  rw [h, hd]

/-- C9.  Retention boundary for done PRs on load: parsing a persisted state,
a `done` PR whose `doneAt` lies strictly more than 24 hours before `now` is
dropped, one whose `doneAt` lies strictly within 24 hours of `now` is
retained, and a PR in any other column is never dropped by this sweep. -/
theorem done_retention_boundary (now : Int) (raw : RawInboxState)
    (pr : InboxPR) (hp : pr ∈ raw.prs) :
    (pr.column ≠ .done → pr ∈ (loadInboxState now (.parsed raw)).prs) ∧
    (∀ t, pr.column = .done → pr.doneAt = some t →
      now - t > DONE_CLEANUP_MS → pr ∉ (loadInboxState now (.parsed raw)).prs) ∧
    (∀ t, pr.column = .done → pr.doneAt = some t →
      now - t < DONE_CLEANUP_MS → pr ∈ (loadInboxState now (.parsed raw)).prs) := by
  refine ⟨?_, ?_, ?_⟩
  · intro hcol
    show pr ∈ cleanupDonePRs now raw.prs
    exact List.mem_filter.mpr ⟨hp, keepDone_of_not_done now pr hcol⟩
  · intro t hcol hdone hold hmem
    have hkeep : keepDone now pr = true :=
      (List.mem_filter.mp (show pr ∈ cleanupDonePRs now raw.prs from hmem)).2
    rw [keepDone_done_some now pr t hcol hdone] at hkeep
    have : t > now - DONE_CLEANUP_MS := of_decide_eq_true hkeep
    omega
  · intro t hcol hdone hrecent
    show pr ∈ cleanupDonePRs now raw.prs
    refine List.mem_filter.mpr ⟨hp, ?_⟩
    rw [keepDone_done_some now pr t hcol hdone]
    exact decide_eq_true (by omega)

/-- The raw persisted state used by the retention witness: one done PR 25
hours old, one done PR 23 hours old, one reviewed PR, at `now` = 100 hours
after the epoch. -/
def retentionRaw : RawInboxState :=
  { prs := [{ donePR with id := "c/d#2", doneAt := some (75 * 3600000) },
            { donePR with id := "c/d#3", doneAt := some (77 * 3600000) },
            samplePR]
    sources := [sampleSource]
    lastPollAt := some 1
    pollIntervalMs := 300000
    ignoredPRIds := some [] }

/-- Witness instantiating `done_retention_boundary` at 25-hour-old and
23-hour-old done PRs and a reviewed PR, with `now` at 100 hours. -/
theorem done_retention_boundary_witness :
    ({ donePR with id := "c/d#2", doneAt := some (75 * 3600000) } ∈
        retentionRaw.prs ∧
      { donePR with id := "c/d#3", doneAt := some (77 * 3600000) } ∈
        retentionRaw.prs ∧
      samplePR ∈ retentionRaw.prs) ∧
    ({ donePR with id := "c/d#2", doneAt := some (75 * 3600000) } ∉
        (loadInboxState (100 * 3600000) (.parsed retentionRaw)).prs ∧
      { donePR with id := "c/d#3", doneAt := some (77 * 3600000) } ∈
        (loadInboxState (100 * 3600000) (.parsed retentionRaw)).prs ∧
      samplePR ∈ (loadInboxState (100 * 3600000) (.parsed retentionRaw)).prs) :=
  ⟨⟨by decide, by decide, by decide⟩,
   ⟨(done_retention_boundary (100 * 3600000) retentionRaw _ (by decide)).2.1
      (75 * 3600000) rfl rfl (by decide),
    (done_retention_boundary (100 * 3600000) retentionRaw _ (by decide)).2.2
      (77 * 3600000) rfl rfl (by decide),
    (done_retention_boundary (100 * 3600000) retentionRaw samplePR
      (by decide)).1 (by decide)⟩⟩

/-- C10.  Load never fails: `loadInboxState` is total over all three shapes
of the persisted file; a missing or unparsable file yields the default state
with empty `prs`, empty `sources`, `lastPollAt` null, `pollIntervalMs`
300000 and an empty ignore ledger, and a parsed file yields the swept state
(never an error). -/
theorem load_never_fails (now : Int) :
    loadInboxState now .missing = getDefaultState ∧
    loadInboxState now .unparsable = getDefaultState ∧
    getDefaultState.prs = [] ∧ getDefaultState.sources = [] ∧
    getDefaultState.lastPollAt = none ∧
    getDefaultState.pollIntervalMs = 300000 ∧
    getDefaultState.ignoredPRIds = [] ∧
    ∀ raw : RawInboxState, loadInboxState now (.parsed raw) =
      { prs := cleanupDonePRs now raw.prs
        sources := raw.sources
        lastPollAt := raw.lastPollAt
        pollIntervalMs := raw.pollIntervalMs
        ignoredPRIds := cleanupExpiredIgnores now (raw.ignoredPRIds.getD []) } :=
  ⟨rfl, rfl, rfl, rfl, rfl, rfl, rfl, fun _ => rfl⟩

end Gavel
